import Mathlib

/-!
Verification development for the SIGTYP 2022 shared-task baseline
(`src/sigtypst2022.py`): the correspondence-pattern learning and
prediction engine.  The Python functions `ungap`,
`split_training_test_data`, `Baseline.fit` and `Baseline.predict` are
shallowly embedded as executable Lean definitions over `List String`
data, and the testable properties of the specification are settled
against them.
-/

namespace ST2022

/-- Enumeration with a starting index, modelling Python's `enumerate`
(`enumF 0 l` is `enumerate(l)`). -/
def enumF (k : Nat) : List α → List (Nat × α)
  | [] => []
  | a :: as => (k, a) :: enumF (k + 1) as

/-- The column of an alignment at index `i`:
`col = [row[i] for row in alignment]`.  Out-of-range indices (which would
raise `IndexError` in Python) are mapped to `""`; the theorems below carry
the equal-row-length hypothesis under which this never happens. -/
def colAt (alignment : List (List String)) (i : Nat) : List String :=
  alignment.map (fun row => row.getD i "")

/-- `pidxs`: the row indices whose language equals the reference (proto)
language, from `ungap`:
`for i, taxon in enumerate(languages): if taxon == proto: pidxs += [i]`. -/
def pidxsOf (languages : List String) (proto : String) : List Nat :=
  ((enumF 0 languages).filter (fun p => p.2 == proto)).map (fun p => p.1)

/-- `col_rest = [site for j, site in enumerate(col) if j not in pidxs]`. -/
def colRestOf (alignment : List (List String)) (pidxs : List Nat) (i : Nat) :
    List String :=
  ((enumF 0 (colAt alignment i)).filter (fun p => !pidxs.contains p.1)).map
    (fun p => p.2)

/-- The merge-target test of `ungap`:
`"-" in col_rest and len(set(col_rest)) == 1`. -/
def isMergeCol (alignment : List (List String)) (pidxs : List Nat) (i : Nat) :
    Bool :=
  (colRestOf alignment pidxs i).contains "-" &&
    (colRestOf alignment pidxs i).dedup.length == 1

/-- The list `merges` of marked column indices built by `ungap`:
`for i in range(len(alignment[0])): ... merges += [i]`. -/
def mergesOf (alignment : List (List String)) (languages : List String)
    (proto : String) : List Nat :=
  (List.range (alignment.headD []).length).filter
    (isMergeCol alignment (pidxsOf languages proto))

/-- A gap cell opens an empty fused cell: `if cell == "-": new_alm += [""]`. -/
def gapToEmpty (cell : String) : String := if cell = "-" then "" else cell

/-- Fusing a cell into the previous output cell, from `ungap`:
gaps are skipped, a non-gap cell is appended with a `.` separator unless the
previous cell is still empty. -/
def absorbCell (last cell : String) : String :=
  if cell = "-" then last
  else if last = "" then cell
  else last ++ "." ++ cell

/-- One step of the column walk of `ungap` for a single row.  The state is
`(new_alm` in reverse order`, mergeit, started)`; `started` is initialised to
`true` and set to `false` at the first column with
`j not in merges and not mergeit`.  In the branch with `¬ started` the
accumulator is necessarily nonempty (a cell was pushed when `started` was
cleared), so the `[]` case is unreachable and returns an arbitrary value. -/
def ungapStep (merges : List Nat) :
    (List String × Bool × Bool) → (Nat × String) → (List String × Bool × Bool)
  | (acc, mergeit, started), (j, cell) =>
    if merges.contains j || mergeit then
      if started then (gapToEmpty cell :: acc, true, started)
      else
        match acc with
        | [] => ([], false, false)
        | last :: rest => (absorbCell last cell :: rest, false, started)
    else (cell :: acc, false, false)

/-- Rewriting an empty fused cell back to a gap, from the final loop of
`ungap`: `if not cell: new_alm[k] = "-"`. -/
def emptyToGap (cell : String) : String := if cell = "" then "-" else cell

/-- The per-row transformation of `ungap` (the body of
`for i, row in enumerate(alignment)` when `merges` is nonempty). -/
def ungapRow (merges : List Nat) (row : List String) : List String :=
  ((((enumF 0 row).foldl (ungapStep merges) ([], false, true)).1).reverse).map
    emptyToGap

/-- The gap-merge transform `ungap(alignment, languages, proto)`.  If no
column is marked the input is returned unchanged. -/
def ungap (alignment : List (List String)) (languages : List String)
    (proto : String) : List (List String) :=
  let merges := mergesOf alignment languages proto
  if merges.isEmpty then alignment else alignment.map (ungapRow merges)

/-- Proof-internal recursive description of the column walk after `started`
has been cleared: a marked column is fused into the running cell, an
unmarked column starts a new cell. -/
def notStarted (m : List Nat) : List (Nat × String) → String → List String
  | [], last => [last]
  | (j, c) :: rest, last =>
    if m.contains j then notStarted m rest (absorbCell last c)
    else last :: notStarted m rest c

/-- Proof-internal selection of the cells at unmarked columns, starting the
index count at `k`. -/
def sel (m : List Nat) (k : Nat) : List String → List String
  | [] => []
  | c :: cs => if m.contains k then sel m (k + 1) cs else c :: sel m (k + 1) cs

/-- Proof-internal: the position (relative to the start of the row) of the
`i`-th unmarked column, when the row has the given length and indexing
starts at `k`. -/
def relIdx (m : List Nat) (k : Nat) : Nat → Nat → Option Nat
  | 0, _ => none
  | n + 1, i =>
    if m.contains k then (relIdx m (k + 1) n i).map (· + 1)
    else
      match i with
      | 0 => some 0
      | i + 1 => (relIdx m (k + 1) n i).map (· + 1)

/-! Embedding of `split_training_test_data(data, languages, ratio)`.
A cognate item is the per-language token sequences in header order; the
collection keeps Python's dict insertion order as a list of key/item
pairs. -/

/-- One cognate item: per-language token sequences, in header order. -/
abbrev Item := List (String × List String)

/-- `" ".join(tokens)`. -/
def joinSpace (tokens : List String) : String := String.intercalate " " tokens

/-- The ranking key of `split_training_test_data`:
`sum([1 if " ".join(b) not in ["", "?"] else 0 for a, b in x[1].items()])`. -/
def realCount (item : Item) : Nat :=
  (item.filter (fun p => !(joinSpace p.2 == "" || joinSpace p.2 == "?"))).length

/-- `sorted(data.items(), key=..., reverse=True)`.  Python's `sorted` is a
stable sort; with `reverse=True` it orders items by decreasing key and
keeps equal-key items in their original order, which is exactly
`mergeSort` with the total reflexive comparison
`realCount b ≤ realCount a`. -/
def sortDesc (data : List (String × Item)) : List (String × Item) :=
  data.mergeSort (fun a b => decide (realCount b.2 ≤ realCount a.2))

/-- `split_off = int(len(data) * ratio + 0.5)`, with the ratio as an exact
rational (`int` truncation agrees with the floor on the nonnegative values
arising from a ratio in `[0, 1]`). -/
def splitOff (n : Nat) (ratio : ℚ) : Nat := (⌊(n : ℚ) * ratio + 1 / 2⌋).toNat

/-- `test_ = {c: data[c] for c in cognates[:split_off]}`: the evaluation
source pool. -/
def evalPool (data : List (String × Item)) (ratio : ℚ) :
    List (String × Item) :=
  (sortDesc data).take (splitOff data.length ratio)

/-- `training = {c: data[c] for c in cognates[split_off:]}`. -/
def trainPool (data : List (String × Item)) (ratio : ℚ) :
    List (String × Item) :=
  (sortDesc data).drop (splitOff data.length ratio)

/-- Looking up one language's entry of an item (`test_[key][language]`). -/
def lookupItem (item : Item) (language : String) : List String :=
  (item.lookup language).getD []

/-- The derived item for one masked language: every other language's value
is copied unchanged, the masked language's value becomes `["?"]`
(the inner loop `for j, languageB in enumerate(languages)`). -/
def maskRow (languages : List String) (language : String) (values : Item) :
    Item :=
  languages.map
    (fun lB => (lB, if lB = language then ["?"] else lookupItem values lB))

/-- The derived evaluation items (`test`), in Python's emission order:
for each language index `i` and pool item whose value at that language has
nonempty joined form, the item masked at that language, keyed
`key + "-" + str(i+1)`. -/
def deriveTests (languages : List String) (pool : List (String × Item)) :
    List (String × Item) :=
  (enumF 0 languages).flatMap (fun q =>
    pool.filterMap (fun kv =>
      if joinSpace (lookupItem kv.2 q.2) = "" then none
      else some (kv.1 ++ "-" ++ toString (q.1 + 1),
        maskRow languages q.2 kv.2)))

/-- The solutions map: the true value of the masked language under the same
derived key. -/
def deriveSolutions (languages : List String) (pool : List (String × Item)) :
    List (String × Item) :=
  (enumF 0 languages).flatMap (fun q =>
    pool.filterMap (fun kv =>
      if joinSpace (lookupItem kv.2 q.2) = "" then none
      else some (kv.1 ++ "-" ++ toString (q.1 + 1),
        [(q.2, lookupItem kv.2 q.2)])))

/-- `split_training_test_data(data, languages, ratio)`, returning
`(training, test, solutions)`. -/
def splitTrainingTestData (data : List (String × Item))
    (languages : List String) (ratio : ℚ) :
    List (String × Item) × List (String × Item) × List (String × Item) :=
  (trainPool data ratio,
    deriveTests languages (evalPool data ratio),
    deriveSolutions languages (evalPool data ratio))

/-! Embedding of `Baseline.fit` (lines 349-390) and `Baseline.predict`
(lines 392-405).  The alignment-matrix builder `self.func` (lingrex's
`transform_alignment`) and the per-language classifier (`CorPaRClassifier`)
are external collaborators; the matrices they produce and the classifier's
decision function are taken as inputs.  With the flags used by
`simple_align`, a training matrix has one row per alignment column, each
row carrying one cell per language of the universe
(`[l for l in self.languages if l != language] + [language]`, the target
last), so every row has length `n = len(self.languages)`. -/

/-- `ptn = tuple(row[:len(self.languages)]+row[len(self.languages)+1:])`
(line 369): the pattern (context) extracted from one matrix row. -/
def extractPattern (n : Nat) (row : List String) : List String :=
  row.take n ++ row.drop (n + 1)

/-- `row[len(self.languages)-1]` (line 370): the label of one matrix row. -/
def extractLabel (n : Nat) (row : List String) : String :=
  row.getD (n - 1) ""

/-- The sounds collected from one matrix row (lines 372-374):
`for sound in ptn: sounds.add(sound)` and `sounds.add(row[-1])`. -/
def soundsOfRow (n : Nat) (row : List String) : List String :=
  extractPattern n row ++ (row.getLast?).toList

/-- All sounds collected from one language's training matrix rows. -/
def soundsOfRows (n : Nat) (rows : List (List String)) : List String :=
  rows.flatMap (soundsOfRow n)

/-- The `sounds` set of `Baseline.fit` (line 360): the union over all
languages of the training-matrix rows' sounds.  The Python set is modelled
by deduplication; its iteration order is irrelevant because the set is
sorted before codes are assigned. -/
def allSounds (n : Nat) (trainRows : List (String × List (List String))) :
    List String :=
  (trainRows.flatMap (fun p => soundsOfRows n p.2)).dedup

/-- `sorted(sounds)` (line 375): Python sorts strings lexicographically;
modelled with the stable `mergeSort` under the total order `¬ b < a`. -/
def sortedSounds (n : Nat) (trainRows : List (String × List (List String))) :
    List String :=
  (allSounds n trainRows).mergeSort (fun a b => !decide (b < a))

/-- Python dict assignment `d[k] = v`: overwrite in place when the key
exists (keeping its position), else append. -/
def dictInsert (d : List (String × Nat)) (k : String) (v : Nat) :
    List (String × Nat) :=
  if d.any (fun p => p.1 == k) then
    d.map (fun p => if p.1 = k then (k, v) else p)
  else d ++ [(k, v)]

/-- `dict(zip(sorted(sounds), range(2, len(sounds)+2)))` as an association
list (the sorted sound list has no duplicates, so the dict is exactly this
list). -/
def codesFrom (k : Nat) : List String → List (String × Nat)
  | [] => []
  | s :: rest => (s, k) :: codesFrom (k + 1) rest

/-- `self.sound2idx` (lines 375-377): codes from 2 for the sorted sounds,
then `self.sound2idx[self.gap] = 1` and `self.sound2idx[self.missing] = 0`.
One single mapping shared by all languages. -/
def fitSound2idx (gap missing : String) (n : Nat)
    (trainRows : List (String × List (List String))) :
    List (String × Nat) :=
  dictInsert (dictInsert (codesFrom 2 (sortedSounds n trainRows)) gap 1)
    missing 0

/-- `self.idx2sound = {v: k for k, v in self.sound2idx.items()}` (line 378).
In a Python dict comprehension a later pair overwrites an earlier one with
the same key; `List.lookup` returns the first match, so the reversed list
realizes that last-wins semantics. -/
def fitIdx2sound (gap missing : String) (n : Nat)
    (trainRows : List (String × List (List String))) :
    List (Nat × String) :=
  ((fitSound2idx gap missing n trainRows).map (fun p => (p.2, p.1))).reverse

/-- Encoding one character in `Baseline.predict` (line 402):
`self.sound2idx.get(char, 0)`. -/
def encodeCell (s2i : List (String × Nat)) (s : String) : Nat :=
  (s2i.lookup s).getD 0

/-- Decoding one predicted code in `Baseline.predict` (line 403):
`self.idx2sound.get(idx, unknown)`. -/
def decodeCell (i2s : List (Nat × String)) (unknown : String) (c : Nat) :
    String :=
  (i2s.lookup c).getD unknown

/-- `Baseline.predict` after the external alignment builder produced
`matrix` (lines 399-405): encode every cell (unseen symbols degrade to the
missing code 0), query the target's classifier `clf` (external, opaque),
decode every predicted code (codes without a symbol degrade to `unknown`),
and drop every literal `"-"` from the output. -/
def baselinePredict (s2i : List (String × Nat)) (i2s : List (Nat × String))
    (clf : List (List Nat) → List Nat) (matrix : List (List String))
    (unknown : String) : List String :=
  let new_matrix := matrix.map (fun row => row.map (encodeCell s2i))
  let out := (clf new_matrix).map (decodeCell i2s unknown)
  out.filter (fun x => x != "-")

/-! Basic lemmas about the embedding. -/

theorem ungap_merges_nil {alignment : List (List String)}
    {languages : List String} {proto : String}
    (h : mergesOf alignment languages proto = []) :
    ungap alignment languages proto = alignment := by
  simp [ungap, h]

theorem enumF_length (k : Nat) (l : List α) : (enumF k l).length = l.length := by
  induction l generalizing k with
  | nil => rfl
  | cons a as ih => simp [enumF, ih]

theorem ungapStep_length (m : List Nat) (st : List String × Bool × Bool)
    (jc : Nat × String) : ((ungapStep m st jc).1).length ≤ st.1.length + 1 := by
  obtain ⟨acc, mergeit, started⟩ := st
  obtain ⟨j, cell⟩ := jc
  simp only [ungapStep]
  split
  · split
    · simp
    · match acc with
      | [] => simp
      | last :: rest => simp
  · simp

theorem foldl_ungapStep_length (m : List Nat) :
    ∀ (l : List (Nat × String)) (st : List String × Bool × Bool),
      ((l.foldl (ungapStep m) st).1).length ≤ st.1.length + l.length := by
  intro l
  induction l with
  | nil => intro st; simp
  | cons jc rest ih =>
    intro st
    calc ((rest.foldl (ungapStep m) (ungapStep m st jc)).1).length
        ≤ (ungapStep m st jc).1.length + rest.length := ih _
      _ ≤ st.1.length + 1 + rest.length :=
          Nat.add_le_add_right (ungapStep_length m st jc) _
      _ = st.1.length + (jc :: rest).length := by
          simp only [List.length_cons]
          omega

theorem ungapRow_length_le (m : List Nat) (row : List String) :
    (ungapRow m row).length ≤ row.length := by
  have h := foldl_ungapStep_length m (enumF 0 row) ([], false, true)
  simpa [ungapRow, enumF_length] using h

theorem getD_map_ungapRow_length (m : List Nat) :
    ∀ (A : List (List String)) (i : Nat),
      ((A.map (ungapRow m)).getD i []).length ≤ (A.getD i []).length := by
  intro A
  induction A with
  | nil => intro i; simp
  | cons r rs ih =>
    intro i
    cases i with
    | zero => simpa using ungapRow_length_le m r
    | succ j => simpa using ih j

/-- C8: the output of `ungap` is never wider than its input (row by row), and
if no column qualifies as a merge target the input is returned exactly
unchanged. -/
theorem ungap_width_invariant (alignment : List (List String))
    (languages : List String) (proto : String) :
    (∀ i, ((ungap alignment languages proto).getD i []).length ≤
        ((alignment.getD i []).length))
    ∧ (mergesOf alignment languages proto = [] →
        ungap alignment languages proto = alignment) := by
  constructor
  · intro i
    unfold ungap
    by_cases h : (mergesOf alignment languages proto).isEmpty
    · simp [h]
    · simp only [h, if_false]
      exact getD_map_ungapRow_length _ alignment i

  · exact ungap_merges_nil

theorem enumF_map_snd (g : α → β) :
    ∀ (k : Nat) (l : List α), (enumF k l).map (fun p => g p.2) = l.map g := by
  intro k l
  induction l generalizing k with
  | nil => rfl
  | cons a as ih => simp [enumF, ih]

theorem emptyToGap_gapToEmpty (x : String) (hx : x ≠ "") :
    emptyToGap (gapToEmpty x) = x := by
  by_cases h : x = "-"
  · simp [gapToEmpty, emptyToGap, h]
  · simp [gapToEmpty, emptyToGap, h, hx]

/-- While `started` and `mergeit` are both set, every cell is pushed as its
own new cell (gaps as `""`), and the flags never change. -/
theorem foldl_ungapStep_started (m : List Nat) :
    ∀ (l : List (Nat × String)) (acc : List String),
      l.foldl (ungapStep m) (acc, true, true) =
        ((l.map (fun jc => gapToEmpty jc.2)).reverse ++ acc, true, true) := by
  intro l
  induction l with
  | nil => intro acc; rfl
  | cons jc rest ih =>
    intro acc
    obtain ⟨j, c⟩ := jc
    have hstep : ungapStep m (acc, true, true) (j, c) =
        (gapToEmpty c :: acc, true, true) := by
      simp [ungapStep]
    simp [List.foldl_cons, hstep, ih]

/-- If the first column is a merge target, the whole row is reproduced
unchanged (for rows without empty-string cells). -/
theorem ungapRow_leading (m : List Nat) (h0 : 0 ∈ m) (row : List String)
    (hc : ∀ c ∈ row, c ≠ "") : ungapRow m row = row := by
  cases row with
  | nil => rfl
  | cons c cs =>
    have hstep : ungapStep m ([], false, true) (0, c) =
        ([gapToEmpty c], true, true) := by
      simp [ungapStep, h0]
    have hfold := foldl_ungapStep_started m (enumF 1 cs) [gapToEmpty c]
    have hmap := enumF_map_snd gapToEmpty 1 cs
    simp only [ungapRow, enumF, List.foldl_cons, hstep, hfold, hmap]
    rw [List.reverse_append]
    simp only [List.reverse_cons, List.reverse_nil, List.nil_append,
      List.reverse_reverse, List.singleton_append, List.map_cons,
      List.map_map]
    have h1 : emptyToGap (gapToEmpty c) = c :=
      emptyToGap_gapToEmpty c (hc c (by simp))
    have h2 : cs.map (emptyToGap ∘ gapToEmpty) = cs := by
      have hall : ∀ x ∈ cs, (emptyToGap ∘ gapToEmpty) x = id x := by
        intro x hx
        exact emptyToGap_gapToEmpty x (hc x (by simp [hx]))
      rw [List.map_congr_left hall, List.map_id]
    rw [h1, h2]

theorem ungap_leading (alignment : List (List String))
    (languages : List String) (proto : String)
    (h0 : 0 ∈ mergesOf alignment languages proto)
    (hc : ∀ row ∈ alignment, ∀ c ∈ row, c ≠ "") :
    ungap alignment languages proto = alignment := by
  have hne : (mergesOf alignment languages proto).isEmpty = false := by
    cases hm : mergesOf alignment languages proto with
    | nil => rw [hm] at h0; cases h0
    | cons a as => rfl
  unfold ungap
  simp only [hne, Bool.false_eq_true, if_false]
  have hall : ∀ row ∈ alignment,
      ungapRow (mergesOf alignment languages proto) row = id row := by
    intro row hrow
    exact ungapRow_leading _ h0 row (hc row hrow)
  rw [List.map_congr_left hall, List.map_id]

/-- C3 (amended): when the first column is a merge target, `ungap` returns
the alignment unchanged — a leading run of marked columns is neither fused
into one column nor dropped; every column survives as-is.  (Cells are
required to be nonempty strings, which holds for all token alignments.) -/
theorem ungap_leading_run_unchanged (alignment : List (List String))
    (languages : List String) (proto : String)
    (h0 : 0 ∈ mergesOf alignment languages proto)
    (hc : ∀ row ∈ alignment, ∀ c ∈ row, c ≠ "") :
    ungap alignment languages proto = alignment :=
  ungap_leading alignment languages proto h0 hc

theorem ungap_leading_run_unchanged_witness :
    ungap [["-", "-", "a"], ["-", "-", "a"], ["x", "y", "z"]]
        ["A", "B", "P"] "P" =
      [["-", "-", "a"], ["-", "-", "a"], ["x", "y", "z"]] :=
  ungap_leading_run_unchanged _ _ _ (by decide) (by decide)

/-- C3 (counterexample): in this alignment the marked columns are exactly
the leading run `[0, 1]` (all non-reference cells are gaps there), yet
`ungap` keeps both of them as separate columns — output width is 3, not the
2 that fusing the run into a single column would give. -/
theorem ungap_leading_run_not_fused :
    mergesOf [["-", "-", "a"], ["-", "-", "a"], ["x", "y", "z"]]
        ["A", "B", "P"] "P" = [0, 1]
    ∧ ungap [["-", "-", "a"], ["-", "-", "a"], ["x", "y", "z"]]
        ["A", "B", "P"] "P" =
      [["-", "-", "a"], ["-", "-", "a"], ["x", "y", "z"]]
    ∧ ((ungap [["-", "-", "a"], ["-", "-", "a"], ["x", "y", "z"]]
        ["A", "B", "P"] "P").headD []).length = 3 := by
  refine ⟨by decide, by decide, by decide⟩

theorem notStarted_length (m : List Nat) :
    ∀ (l : List (Nat × String)) (last : String),
      (notStarted m l last).length =
        1 + (l.filter (fun q => !m.contains q.1)).length := by
  intro l
  induction l with
  | nil => intro last; simp [notStarted]
  | cons q rest ih =>
    intro last
    obtain ⟨j, c⟩ := q
    by_cases hm : j ∈ m
    · simp [notStarted, hm, List.filter_cons, ih]
    · simp [notStarted, hm, List.filter_cons, ih]
      omega

theorem sel_length_eq_filter (m : List Nat) :
    ∀ (xs : List String) (k : Nat),
      (sel m k xs).length =
        ((enumF k xs).filter (fun q => !m.contains q.1)).length := by
  intro xs
  induction xs with
  | nil => intro k; simp [sel, enumF]
  | cons c cs ih =>
    intro k
    by_cases hm : k ∈ m
    · simp [sel, enumF, hm, List.filter_cons, ih]
    · simp [sel, enumF, hm, List.filter_cons, ih]

theorem foldl_ungapStep_notStarted (m : List Nat) :
    ∀ (l : List (Nat × String)) (last : String) (accRest : List String),
      (l.foldl (ungapStep m) (last :: accRest, false, false)).1 =
        (notStarted m l last).reverse ++ accRest := by
  intro l
  induction l with
  | nil => intro last accRest; simp [notStarted]
  | cons q rest ih =>
    intro last accRest
    obtain ⟨j, c⟩ := q
    by_cases hm : j ∈ m
    · have hstep : ungapStep m (last :: accRest, false, false) (j, c) =
          (absorbCell last c :: accRest, false, false) := by
        simp [ungapStep, hm]
      simp [List.foldl_cons, hstep, ih, notStarted, hm]
    · have hstep : ungapStep m (last :: accRest, false, false) (j, c) =
          (c :: last :: accRest, false, false) := by
        simp [ungapStep, hm]
      simp [List.foldl_cons, hstep, ih, notStarted, hm]

theorem notStarted_sel (m : List Nat) :
    ∀ (cs : List String) (k : Nat) (last : String),
      (∀ i, m.contains (k + i) = true → cs.getD i "" = "-") →
      notStarted m (enumF k cs) last = last :: sel m k cs := by
  intro cs
  induction cs with
  | nil => intro k last _; simp [enumF, notStarted, sel]
  | cons c cs ih =>
    intro k last hg
    have hg' : ∀ i, m.contains (k + 1 + i) = true → cs.getD i "" = "-" := by
      intro i hi
      have h := hg (i + 1) (by rwa [show k + (i + 1) = k + 1 + i by omega])
      simpa using h
    by_cases hm : k ∈ m
    · have hc : c = "-" := by
        have h := hg 0 (by simpa using hm)
        simpa using h
      have habs : absorbCell last c = last := by
        simp [absorbCell, hc]
      simp [enumF, notStarted, hm, habs, ih _ _ hg', sel]
    · simp [enumF, notStarted, hm, ih _ _ hg', sel]

theorem sel_subset (m : List Nat) :
    ∀ (xs : List String) (k : Nat) (x : String), x ∈ sel m k xs → x ∈ xs := by
  intro xs
  induction xs with
  | nil => intro k x hx; simp [sel] at hx
  | cons c cs ih =>
    intro k x hx
    by_cases hm : k ∈ m
    · simp only [sel, List.elem_eq_mem, hm, decide_eq_true_eq, if_pos] at hx
      exact List.mem_cons_of_mem c (ih _ _ hx)
    · rw [show sel m k (c :: cs) = c :: sel m (k + 1) cs by
        simp [sel, hm]] at hx
      rcases List.mem_cons.mp hx with h | h
      · simp [h]
      · exact List.mem_cons_of_mem c (ih _ _ h)

theorem ungapRow_eq_notStarted (m : List Nat) (h0 : 0 ∉ m) (c : String)
    (cs : List String) :
    ungapRow m (c :: cs) = (notStarted m (enumF 1 cs) c).map emptyToGap := by
  have hstep : ungapStep m ([], false, true) (0, c) = ([c], false, false) := by
    simp [ungapStep, h0]
  have hfold := foldl_ungapStep_notStarted m (enumF 1 cs) c []
  simp only [ungapRow, enumF, List.foldl_cons, hstep, hfold, List.append_nil,
    List.reverse_reverse]

theorem ungapRow_sel (m : List Nat) (h0 : 0 ∉ m) (row : List String)
    (hc : ∀ c ∈ row, c ≠ "") (hg : ∀ j ∈ m, row.getD j "" = "-") :
    ungapRow m row = sel m 0 row := by
  cases row with
  | nil => rfl
  | cons c cs =>
    rw [ungapRow_eq_notStarted m h0 c cs]
    have hg1 : ∀ i, m.contains (1 + i) = true → cs.getD i "" = "-" := by
      intro i hi
      have hmem : (1 + i) ∈ m := by simpa using hi
      have h := hg (1 + i) hmem
      rwa [show (1 : Nat) + i = i + 1 by omega, List.getD_cons_succ] at h
    rw [notStarted_sel m cs 1 c hg1]
    have hid : ∀ x ∈ c :: sel m 1 cs, emptyToGap x = id x := by
      intro x hx
      have hxrow : x ∈ c :: cs := by
        rcases List.mem_cons.mp hx with h | h
        · simp [h]
        · exact List.mem_cons_of_mem c (sel_subset m cs 1 x h)
      simp [emptyToGap, hc x hxrow]
    rw [List.map_congr_left hid, List.map_id]
    simp [sel, h0]

theorem ungapRow_length_sel (m : List Nat) (h0 : 0 ∉ m) (row : List String) :
    (ungapRow m row).length = (sel m 0 row).length := by
  cases row with
  | nil => rfl
  | cons c cs =>
    rw [ungapRow_eq_notStarted m h0 c cs]
    rw [List.length_map, notStarted_length, ← sel_length_eq_filter]
    simp only [sel, List.elem_eq_mem, h0, decide_eq_true_eq]
    simp [h0]
    omega

theorem relIdx_isSome (m : List Nat) :
    ∀ (xs : List String) (k i : Nat), i < (sel m k xs).length →
      (relIdx m k xs.length i).isSome := by
  intro xs
  induction xs with
  | nil => intro k i hi; simp [sel] at hi
  | cons c cs ih =>
    intro k i hi
    by_cases hm : k ∈ m
    · rw [show sel m k (c :: cs) = sel m (k + 1) cs by simp [sel, hm]] at hi
      have heq : relIdx m k (cs.length + 1) i =
          (relIdx m (k + 1) cs.length i).map (· + 1) := by
        simp [relIdx, hm]
      rw [List.length_cons, heq, Option.isSome_map']
      exact ih _ _ hi
    · rw [show sel m k (c :: cs) = c :: sel m (k + 1) cs by
        simp [sel, hm]] at hi
      cases i with
      | zero => simp [relIdx, hm]
      | succ i =>
        simp only [List.length_cons] at hi
        have hi' : i < (sel m (k + 1) cs).length := by omega
        have heq : relIdx m k (cs.length + 1) (i + 1) =
            (relIdx m (k + 1) cs.length i).map (· + 1) := by
          simp [relIdx, hm]
        rw [List.length_cons, heq, Option.isSome_map']
        exact ih _ _ hi'

theorem sel_getD (m : List Nat) :
    ∀ (xs : List String) (k i p : Nat), relIdx m k xs.length i = some p →
      (sel m k xs).getD i "" = xs.getD p "" := by
  intro xs
  induction xs with
  | nil => intro k i p hp; simp [relIdx] at hp
  | cons c cs ih =>
    intro k i p hp
    by_cases hm : k ∈ m
    · simp only [List.length_cons, relIdx, List.elem_eq_mem, hm,
        decide_eq_true_eq, if_pos, Option.map_eq_some'] at hp
      obtain ⟨q, hq, rfl⟩ := hp
      rw [show sel m k (c :: cs) = sel m (k + 1) cs by simp [sel, hm]]
      rw [ih _ _ _ hq, List.getD_cons_succ]
    · rw [show sel m k (c :: cs) = c :: sel m (k + 1) cs by simp [sel, hm]]
      cases i with
      | zero =>
        have h0p : 0 = p := by simpa [relIdx, hm] using hp
        subst h0p
        simp
      | succ i =>
        have hp' : (relIdx m (k + 1) cs.length i).map (· + 1) = some p := by
          simpa [relIdx, hm] using hp
        rw [Option.map_eq_some'] at hp'
        obtain ⟨q, hq, rfl⟩ := hp'
        rw [List.getD_cons_succ, List.getD_cons_succ]
        exact ih _ _ _ hq

theorem relIdx_not_mem (m : List Nat) :
    ∀ (n k i p : Nat), relIdx m k n i = some p → (k + p) ∉ m := by
  intro n
  induction n with
  | zero => intro k i p hp; simp [relIdx] at hp
  | succ n ih =>
    intro k i p hp
    by_cases hm : k ∈ m
    · simp only [relIdx, List.elem_eq_mem, hm, decide_eq_true_eq, if_pos,
        Option.map_eq_some'] at hp
      obtain ⟨q, hq, rfl⟩ := hp
      have := ih (k + 1) i q hq
      rwa [show k + (q + 1) = k + 1 + q by omega]
    · cases i with
      | zero =>
        have h0p : 0 = p := by simpa [relIdx, hm] using hp
        subst h0p
        simpa using hm
      | succ i =>
        have hp' : (relIdx m (k + 1) n i).map (· + 1) = some p := by
          simpa [relIdx, hm] using hp
        rw [Option.map_eq_some'] at hp'
        obtain ⟨q, hq, rfl⟩ := hp'
        have := ih (k + 1) i q hq
        rwa [show k + (q + 1) = k + 1 + q by omega]

theorem relIdx_lt (m : List Nat) :
    ∀ (n k i p : Nat), relIdx m k n i = some p → p < n := by
  intro n
  induction n with
  | zero => intro k i p hp; simp [relIdx] at hp
  | succ n ih =>
    intro k i p hp
    by_cases hm : k ∈ m
    · simp only [relIdx, List.elem_eq_mem, hm, decide_eq_true_eq, if_pos,
        Option.map_eq_some'] at hp
      obtain ⟨q, hq, rfl⟩ := hp
      have := ih (k + 1) i q hq
      omega
    · cases i with
      | zero =>
        have h0p : 0 = p := by simpa [relIdx, hm] using hp
        omega
      | succ i =>
        have hp' : (relIdx m (k + 1) n i).map (· + 1) = some p := by
          simpa [relIdx, hm] using hp
        rw [Option.map_eq_some'] at hp'
        obtain ⟨q, hq, rfl⟩ := hp'
        have := ih (k + 1) i q hq
        omega

theorem getD_map_of_lt (f : α → β) (d : α) (d' : β) :
    ∀ (l : List α) (r : Nat), r < l.length →
      (l.map f).getD r d' = f (l.getD r d) := by
  intro l
  induction l with
  | nil => intro r hr; simp at hr
  | cons a as ih =>
    intro r hr
    cases r with
    | zero => simp
    | succ r =>
      simp only [List.length_cons] at hr
      simpa using ih r (by omega)

theorem getD_mem (d : α) : ∀ (l : List α) (r : Nat), r < l.length →
    l.getD r d ∈ l := by
  intro l
  induction l with
  | nil => intro r hr; simp at hr
  | cons a as ih =>
    intro r hr
    cases r with
    | zero => simp
    | succ r =>
      simp only [List.length_cons] at hr
      simp only [List.getD_cons_succ]
      exact List.mem_cons_of_mem a (ih r (by omega))

theorem mem_enumF_getD (d : α) :
    ∀ (l : List α) (k r : Nat), r < l.length →
      (k + r, l.getD r d) ∈ enumF k l := by
  intro l
  induction l with
  | nil => intro k r hr; simp at hr
  | cons a as ih =>
    intro k r hr
    cases r with
    | zero => simp [enumF]
    | succ r =>
      simp only [List.length_cons] at hr
      have h := ih (k + 1) r (by omega)
      rw [show k + (r + 1) = k + 1 + r by omega]
      simp only [enumF, List.getD_cons_succ]
      exact List.mem_cons_of_mem _ h

theorem enumF_filter_map_congr (pid : List Nat) :
    ∀ (u v : List String) (k : Nat), u.length = v.length →
      (∀ r, pid.contains (k + r) = false → u.getD r "" = v.getD r "") →
      ((enumF k u).filter (fun q => !pid.contains q.1)).map (fun q => q.2) =
        ((enumF k v).filter (fun q => !pid.contains q.1)).map
          (fun q => q.2) := by
  intro u
  induction u with
  | nil =>
    intro v k hlen _
    have : v = [] := by
      cases v with
      | nil => rfl
      | cons b bs => simp at hlen
    subst this
    rfl
  | cons a u ih =>
    intro v k hlen hpt
    cases v with
    | nil => simp at hlen
    | cons b bs =>
      simp only [List.length_cons] at hlen
      have hlen' : u.length = bs.length := by omega
      have hpt' : ∀ r, pid.contains (k + 1 + r) = false →
          u.getD r "" = bs.getD r "" := by
        intro r hr
        have h := hpt (r + 1) (by rwa [show k + (r + 1) = k + 1 + r by omega])
        simpa using h
      by_cases hk : k ∈ pid
      · have hu : (enumF k (a :: u)).filter (fun q => !pid.contains q.1) =
            (enumF (k + 1) u).filter (fun q => !pid.contains q.1) := by
          simp [enumF, List.filter_cons, hk]
        have hv : (enumF k (b :: bs)).filter (fun q => !pid.contains q.1) =
            (enumF (k + 1) bs).filter (fun q => !pid.contains q.1) := by
          simp [enumF, List.filter_cons, hk]
        rw [hu, hv]
        exact ih bs (k + 1) hlen' hpt'
      · have hab : a = b := by
          have h := hpt 0 (by simpa using hk)
          simpa using h
        subst hab
        have hu : (enumF k (a :: u)).filter (fun q => !pid.contains q.1) =
            (k, a) :: (enumF (k + 1) u).filter (fun q => !pid.contains q.1) :=
          by simp [enumF, List.filter_cons, hk]
        have hv : (enumF k (a :: bs)).filter (fun q => !pid.contains q.1) =
            (k, a) :: (enumF (k + 1) bs).filter (fun q => !pid.contains q.1) :=
          by simp [enumF, List.filter_cons, hk]
        rw [hu, hv]
        simpa using ih bs (k + 1) hlen' hpt'

theorem eq_of_dedup_singleton {l : List String} (h1 : l.dedup.length = 1)
    (hm : "-" ∈ l) : ∀ x ∈ l, x = "-" := by
  obtain ⟨a, ha⟩ := List.length_eq_one.mp h1
  intro x hx
  have hxa : x = a := by
    have h := List.mem_dedup.mpr hx
    rw [ha] at h
    simpa using h
  have hga : "-" = a := by
    have h := List.mem_dedup.mpr hm
    rw [ha] at h
    simpa using h
  rw [hxa, ← hga]

theorem mergeCol_all_gap {alignment : List (List String)}
    {languages : List String} {proto : String} {j : Nat}
    (hj : j ∈ mergesOf alignment languages proto) :
    ∀ x ∈ colRestOf alignment (pidxsOf languages proto) j, x = "-" := by
  have hj' := List.mem_filter.mp hj
  have hcol : isMergeCol alignment (pidxsOf languages proto) j = true := hj'.2
  rw [isMergeCol, Bool.and_eq_true] at hcol
  have hmem : "-" ∈ colRestOf alignment (pidxsOf languages proto) j := by
    have := hcol.1
    simpa using this
  have hded : (colRestOf alignment (pidxsOf languages proto) j).dedup.length
      = 1 := by
    have := hcol.2
    simpa using this
  exact eq_of_dedup_singleton hded hmem

theorem getD_mem_colRest (A : List (List String)) (pid : List Nat)
    (i r : Nat) (hr : r < A.length) (hp : pid.contains r = false) :
    (A.getD r []).getD i "" ∈ colRestOf A pid i := by
  have hcol : (colAt A i).getD r "" = (A.getD r []).getD i "" :=
    getD_map_of_lt _ [] "" A r hr
  have hmem : (r, (colAt A i).getD r "") ∈ enumF 0 (colAt A i) := by
    have h := mem_enumF_getD "" (colAt A i) 0 r
      (by simpa [colAt] using hr)
    simpa using h
  rw [hcol] at hmem
  have hkeep : (r, (A.getD r []).getD i "") ∈
      (enumF 0 (colAt A i)).filter (fun q => !pid.contains q.1) :=
    List.mem_filter.mpr ⟨hmem, by simpa using hp⟩
  exact List.mem_map.mpr ⟨_, hkeep, rfl⟩

theorem getD_of_length_le (d : α) : ∀ (l : List α) (n : Nat),
    l.length ≤ n → l.getD n d = d := by
  intro l
  induction l with
  | nil => intro n _; simp
  | cons a as ih =>
    intro n hn
    cases n with
    | zero => simp at hn
    | succ n =>
      simp only [List.length_cons] at hn
      simp only [List.getD_cons_succ]
      exact ih n (by omega)

/-- C7: applying the gap-merge transform twice yields the same result as
applying it once.  The hypotheses state the alignment-matrix invariants: all
rows have the same length and all cells are nonempty token strings. -/
theorem ungap_idempotent (alignment : List (List String))
    (languages : List String) (proto : String)
    (hw : ∀ row ∈ alignment, row.length = (alignment.headD []).length)
    (hc : ∀ row ∈ alignment, ∀ c ∈ row, c ≠ "") :
    ungap (ungap alignment languages proto) languages proto =
      ungap alignment languages proto := by
  by_cases hm : mergesOf alignment languages proto = []
  · have hA := ungap_merges_nil hm
    rw [hA]
    exact hA
  · by_cases h0 : 0 ∈ mergesOf alignment languages proto
    · have hA := ungap_leading alignment languages proto h0 hc
      rw [hA]
      exact hA
    · have hnempty : (mergesOf alignment languages proto).isEmpty = false := by
        cases hx : mergesOf alignment languages proto with
        | nil => exact absurd hx hm
        | cons a as => rfl
      have hO : ungap alignment languages proto =
          alignment.map (ungapRow (mergesOf alignment languages proto)) := by
        simp [ungap, hnempty]
      rw [hO]
      apply ungap_merges_nil
      cases alignment with
      | nil => exact absurd (by simp [mergesOf]) hm
      | cons r0 A' =>
        rw [mergesOf, List.filter_eq_nil_iff]
        intro k hk
        have hkw : k <
            (sel (mergesOf (r0 :: A') languages proto) 0 r0).length := by
          rw [← ungapRow_length_sel _ h0 r0]
          simpa [List.headD] using hk
        obtain ⟨p, hp⟩ := Option.isSome_iff_exists.mp
          (relIdx_isSome _ r0 0 k hkw)
        have hpnot : p ∉ mergesOf (r0 :: A') languages proto := by
          have h := relIdx_not_mem _ r0.length 0 k p hp
          simpa using h
        have hplt : p < r0.length := relIdx_lt _ r0.length 0 k p hp
        have hcr : colRestOf
              ((r0 :: A').map (ungapRow (mergesOf (r0 :: A') languages proto)))
              (pidxsOf languages proto) k =
            colRestOf (r0 :: A') (pidxsOf languages proto) p := by
          unfold colRestOf
          apply enumF_filter_map_congr (pidxsOf languages proto) _ _ 0
          · simp [colAt]
          · intro r hr
            have hrzero : (pidxsOf languages proto).contains r = false := by
              simpa using hr
            by_cases hrlen : r < (r0 :: A').length
            · have hOr : (colAt
                  ((r0 :: A').map
                    (ungapRow (mergesOf (r0 :: A') languages proto))) k).getD
                    r "" =
                  (ungapRow (mergesOf (r0 :: A') languages proto)
                    ((r0 :: A').getD r [])).getD k "" := by
                rw [colAt, getD_map_of_lt _ [] "" _ r (by simpa using hrlen),
                  getD_map_of_lt _ [] [] _ r hrlen]
              have hAr : (colAt (r0 :: A') p).getD r "" =
                  ((r0 :: A').getD r []).getD p "" := by
                rw [colAt, getD_map_of_lt _ [] "" _ r hrlen]
              rw [hOr, hAr]
              have hrowmem : (r0 :: A').getD r [] ∈ r0 :: A' :=
                getD_mem [] _ r hrlen
              have hrowlen : ((r0 :: A').getD r []).length = r0.length := by
                have h := hw _ hrowmem
                simpa [List.headD] using h
              have hrowgap : ∀ j ∈ mergesOf (r0 :: A') languages proto,
                  ((r0 :: A').getD r []).getD j "" = "-" := by
                intro j hj
                exact mergeCol_all_gap hj _
                  (getD_mem_colRest (r0 :: A') (pidxsOf languages proto) j r
                    hrlen hrzero)
              rw [ungapRow_sel _ h0 _ (hc _ hrowmem) hrowgap]
              have hp' : relIdx (mergesOf (r0 :: A') languages proto) 0
                  ((r0 :: A').getD r []).length k = some p := by
                rw [hrowlen]
                exact hp
              exact sel_getD _ _ 0 k p hp'
            · have hlen1 : (colAt
                  ((r0 :: A').map
                    (ungapRow (mergesOf (r0 :: A') languages proto))) k).length
                  ≤ r := by
                simp only [colAt, List.length_map]
                omega
              have hlen2 : (colAt (r0 :: A') p).length ≤ r := by
                simp only [colAt, List.length_map]
                omega
              rw [getD_of_length_le _ _ _ hlen1, getD_of_length_le _ _ _ hlen2]
        have hnotm : isMergeCol (r0 :: A') (pidxsOf languages proto) p
            = false := by
          cases hx : isMergeCol (r0 :: A') (pidxsOf languages proto) p with
          | false => rfl
          | true =>
            exfalso
            apply hpnot
            rw [mergesOf]
            apply List.mem_filter.mpr
            constructor
            · simpa [List.headD] using hplt
            · exact hx
        have heqcol : isMergeCol
            ((r0 :: A').map (ungapRow (mergesOf (r0 :: A') languages proto)))
            (pidxsOf languages proto) k =
            isMergeCol (r0 :: A') (pidxsOf languages proto) p := by
          rw [isMergeCol, isMergeCol, hcr]
        rw [heqcol, hnotm]
        simp

theorem ungap_idempotent_witness :
    ungap (ungap [["a", "-", "b"], ["a", "-", "b"], ["x", "y", "z"]]
        ["A", "B", "P"] "P") ["A", "B", "P"] "P" =
      ungap [["a", "-", "b"], ["a", "-", "b"], ["x", "y", "z"]]
        ["A", "B", "P"] "P" :=
  ungap_idempotent [["a", "-", "b"], ["a", "-", "b"], ["x", "y", "z"]]
    ["A", "B", "P"] "P" (by decide) (by decide)

theorem ungap_width_invariant_witness :
    ((ungap [["a"], ["b"]] ["A", "B"] "B").getD 0 []).length ≤
      (([["a"], ["b"]] : List (List String)).getD 0 []).length
    ∧ ungap [["a"], ["b"]] ["A", "B"] "B" = [["a"], ["b"]] :=
  ⟨(ungap_width_invariant [["a"], ["b"]] ["A", "B"] "B").1 0,
    (ungap_width_invariant [["a"], ["b"]] ["A", "B"] "B").2 (by decide)⟩

/-- C10: the split selects as evaluation source pool the top
`round(ratio * |data|)` items of the stable descending ranking by count of
real values, the training pool is the rest, and the two pools partition the
original items: their keys form a permutation of the original keys with no
overlap, every pool item ranks at least as high as every training item, the
ranking is stable (items of equal count stay in original order), and the
pool size is `min (split_off) |data|`. -/
theorem split_pools_partition (data : List (String × Item))
    (languages : List String) (ratio : ℚ)
    (hnd : (data.map Prod.fst).Nodup) :
    ((splitTrainingTestData data languages ratio).1 = trainPool data ratio)
    ∧ List.Perm
        ((evalPool data ratio).map Prod.fst ++
          (trainPool data ratio).map Prod.fst)
        (data.map Prod.fst)
    ∧ (∀ key ∈ (evalPool data ratio).map Prod.fst,
        key ∉ (trainPool data ratio).map Prod.fst)
    ∧ (∀ a ∈ evalPool data ratio, ∀ b ∈ trainPool data ratio,
        realCount b.2 ≤ realCount a.2)
    ∧ (∀ c : Nat, (sortDesc data).filter (fun kv => realCount kv.2 == c) =
        data.filter (fun kv => realCount kv.2 == c))
    ∧ (evalPool data ratio).length =
        min (splitOff data.length ratio) data.length := by
  have htrans : ∀ (a b c : String × Item),
      decide (realCount b.2 ≤ realCount a.2) = true →
      decide (realCount c.2 ≤ realCount b.2) = true →
      decide (realCount c.2 ≤ realCount a.2) = true := by
    intro a b c h1 h2
    simp only [decide_eq_true_eq] at h1 h2 ⊢
    omega
  have htotal : ∀ (a b : String × Item),
      (decide (realCount b.2 ≤ realCount a.2) ||
        decide (realCount a.2 ≤ realCount b.2)) = true := by
    intro a b
    rcases Nat.le_total (realCount a.2) (realCount b.2) with h | h <;>
      simp [h]
  have hperm : List.Perm (sortDesc data) data := List.mergeSort_perm data _
  have htd : evalPool data ratio ++ trainPool data ratio = sortDesc data :=
    List.take_append_drop _ _
  refine ⟨rfl, ?_, ?_, ?_, ?_, ?_⟩
  · rw [← List.map_append, htd]
    exact hperm.map Prod.fst
  · have hnd2 : ((sortDesc data).map Prod.fst).Nodup :=
      ((hperm.map Prod.fst).nodup_iff).mpr hnd
    rw [← htd, List.map_append] at hnd2
    have hdis := (List.nodup_append.mp hnd2).2.2
    exact fun key hk1 hk2 => hdis hk1 hk2
  · have hpw : (sortDesc data).Pairwise
        (fun a b => decide (realCount b.2 ≤ realCount a.2) = true) :=
      List.sorted_mergeSort htrans htotal data
    rw [← htd] at hpw
    have h := (List.pairwise_append.mp hpw).2.2
    intro a ha b hb
    have hab := h a ha b hb
    simpa using hab
  · intro c
    have hsub : List.Sublist (data.filter (fun kv => realCount kv.2 == c))
        data :=
      List.filter_sublist data
    have hpw2 : (data.filter (fun kv => realCount kv.2 == c)).Pairwise
        (fun a b => decide (realCount b.2 ≤ realCount a.2) = true) := by
      apply List.pairwise_of_forall_mem_list
      intro a ha b hb
      have ha' := (List.mem_filter.mp ha).2
      have hb' := (List.mem_filter.mp hb).2
      simp only [beq_iff_eq] at ha' hb'
      simp [ha', hb']
    have h3 : List.Sublist (data.filter (fun kv => realCount kv.2 == c))
        (sortDesc data) :=
      List.sublist_mergeSort htrans htotal hpw2 hsub
    have h4 : (data.filter (fun kv => realCount kv.2 == c)).filter
        (fun kv => realCount kv.2 == c) =
        data.filter (fun kv => realCount kv.2 == c) :=
      List.filter_eq_self.mpr (fun a ha => (List.mem_filter.mp ha).2)
    have h5 : List.Sublist (data.filter (fun kv => realCount kv.2 == c))
        ((sortDesc data).filter (fun kv => realCount kv.2 == c)) := by
      have h := h3.filter (fun kv => realCount kv.2 == c)
      rwa [h4] at h
    have h6 : List.Perm ((sortDesc data).filter (fun kv => realCount kv.2 == c))
        (data.filter (fun kv => realCount kv.2 == c)) :=
      hperm.filter _
    exact (h5.eq_of_length h6.length_eq.symm).symm
  · simp [evalPool, sortDesc, List.length_take]

theorem split_pools_partition_witness :
    List.Perm
      ((evalPool [("a", [("L1", ["x"]), ("L2", ["y"])]),
          ("b", [("L1", []), ("L2", ["z"])])] (1 / 2)).map Prod.fst ++
        (trainPool [("a", [("L1", ["x"]), ("L2", ["y"])]),
          ("b", [("L1", []), ("L2", ["z"])])] (1 / 2)).map Prod.fst)
      (([("a", [("L1", ["x"]), ("L2", ["y"])]),
          ("b", [("L1", []), ("L2", ["z"])])] :
        List (String × Item)).map Prod.fst) :=
  (split_pools_partition
    [("a", [("L1", ["x"]), ("L2", ["y"])]), ("b", [("L1", []), ("L2", ["z"])])]
    ["L1", "L2"] (1 / 2) (by decide)).2.1

theorem lookup_map_pair (f : String → List String) :
    ∀ (ls : List String) (x : String), x ∈ ls →
      (ls.map (fun l => (l, f l))).lookup x = some (f x) := by
  intro ls
  induction ls with
  | nil => intro x hx; cases hx
  | cons l ls ih =>
    intro x hx
    by_cases hlx : l = x
    · subst hlx
      simp [List.lookup]
    · have hxls : x ∈ ls := by
        rcases List.mem_cons.mp hx with h | h
        · exact absurd h.symm hlx
        · exact h
      have hbeq : (x == l) = false :=
        beq_eq_false_iff_ne.mpr (fun h => hlx h.symm)
      simp [List.lookup, hbeq, ih x hxls]

theorem lookup_maskRow_self (languages : List String) (language : String)
    (values : Item) (h : language ∈ languages) :
    lookupItem (maskRow languages language values) language = ["?"] := by
  unfold lookupItem maskRow
  rw [lookup_map_pair _ languages language h]
  simp

theorem lookup_maskRow_other (languages : List String)
    (language lB : String) (values : Item) (hB : lB ∈ languages)
    (hne : lB ≠ language) :
    lookupItem (maskRow languages language values) lB =
      lookupItem values lB := by
  unfold lookupItem maskRow
  rw [lookup_map_pair _ languages lB hB]
  simp [hne, lookupItem]

theorem mem_enumF_elim :
    ∀ (l : List String) (k : Nat) (q : Nat × String), q ∈ enumF k l →
      ∃ i, i < l.length ∧ q.1 = k + i ∧ q.2 = l.getD i "" := by
  intro l
  induction l with
  | nil => intro k q hq; cases hq
  | cons a as ih =>
    intro k q hq
    rcases List.mem_cons.mp hq with h | h
    · exact ⟨0, by simp, by simp [h], by simp [h]⟩
    · obtain ⟨i, hi, h1, h2⟩ := ih (k + 1) q h
      exact ⟨i + 1, by simp; omega, by omega, by simpa using h2⟩

/-- C4 (amended): the derived evaluation items are exactly one item per
(pool item, language) pair whose joined value is nonempty — the placeholder
`"?"` also counts as present, unlike in the ranking criterion — keyed
`key-"-"-(i+1)`; every other language's field is copied unchanged, the
masked language's field is the single placeholder token, and the solutions
map records the true value under the same derived key. -/
theorem split_derived_items (languages : List String)
    (pool : List (String × Item)) :
    (∀ (i : Nat), i < languages.length → ∀ (key : String) (values : Item),
        (key, values) ∈ pool →
        joinSpace (lookupItem values (languages.getD i "")) ≠ "" →
        ((key ++ "-" ++ toString (i + 1),
            maskRow languages (languages.getD i "") values) ∈
          deriveTests languages pool
        ∧ (key ++ "-" ++ toString (i + 1),
            [(languages.getD i "",
              lookupItem values (languages.getD i ""))]) ∈
          deriveSolutions languages pool))
    ∧ (∀ entry ∈ deriveTests languages pool,
        ∃ i, i < languages.length ∧ ∃ key values,
          (key, values) ∈ pool
          ∧ joinSpace (lookupItem values (languages.getD i "")) ≠ ""
          ∧ entry = (key ++ "-" ++ toString (i + 1),
              maskRow languages (languages.getD i "") values))
    ∧ (∀ (language : String) (values : Item), language ∈ languages →
        lookupItem (maskRow languages language values) language = ["?"])
    ∧ (∀ (language lB : String) (values : Item), lB ∈ languages →
        lB ≠ language →
        lookupItem (maskRow languages language values) lB =
          lookupItem values lB) := by
  refine ⟨?_, ?_, ?_, ?_⟩
  · intro i hi key values hmem hcond
    have henum : (i, languages.getD i "") ∈ enumF 0 languages := by
      have h := mem_enumF_getD "" languages 0 i hi
      simpa using h
    generalize hL : languages.getD i "" = lang at hcond henum ⊢
    constructor
    · apply List.mem_flatMap.mpr
      refine ⟨(i, lang), henum, ?_⟩
      apply List.mem_filterMap.mpr
      refine ⟨(key, values), hmem, ?_⟩
      simp [hcond]
    · apply List.mem_flatMap.mpr
      refine ⟨(i, lang), henum, ?_⟩
      apply List.mem_filterMap.mpr
      refine ⟨(key, values), hmem, ?_⟩
      simp [hcond]
  · intro entry hentry
    obtain ⟨q, hq, hentry2⟩ := List.mem_flatMap.mp hentry
    obtain ⟨kv, hkv, hres⟩ := List.mem_filterMap.mp hentry2
    obtain ⟨i, hi, h1, h2⟩ := mem_enumF_elim languages 0 q hq
    by_cases hcond : joinSpace (lookupItem kv.2 q.2) = ""
    · rw [if_pos hcond] at hres
      cases hres
    · rw [if_neg hcond] at hres
      refine ⟨i, hi, kv.1, kv.2, hkv, ?_, ?_⟩
      · rw [← h2]
        exact hcond
      · have hq1 : q.1 = i := by omega
        have hres2 := Option.some.inj hres
        rw [hq1, h2] at hres2
        exact hres2.symm
  · intro language values h
    exact lookup_maskRow_self languages language values h
  · intro language lB values hB hne
    exact lookup_maskRow_other languages language lB values hB hne

theorem split_derived_items_witness :
    ("c1-1", maskRow ["L1", "L2"] "L1" [("L1", ["x"])]) ∈
      deriveTests ["L1", "L2"] [("c1", [("L1", ["x"])])] :=
  ((split_derived_items ["L1", "L2"] [("c1", [("L1", ["x"])])]).1 0
    (by decide) "c1" [("L1", ["x"])] (by decide) (by decide)).1

/-- C4 (counterexample): with a single pool item whose language `L1` holds
the placeholder value `["?"]`, the code still emits a derived item `c1-1`
masking `L1` (its joined value `"?"` is nonempty), and records the
placeholder itself as the solution — the claim says no derived item may be
emitted for a pair whose value is the placeholder. -/
theorem split_emits_placeholder_item :
    ((splitTrainingTestData [("c1", [("L1", ["?"]), ("L2", ["a"])])]
        ["L1", "L2"] (1 / 2)).2.1).map Prod.fst = ["c1-1", "c1-2"]
    ∧ ("c1-1", [("L1", ["?"])]) ∈
      (splitTrainingTestData [("c1", [("L1", ["?"]), ("L2", ["a"])])]
        ["L1", "L2"] (1 / 2)).2.2 := by
  have hsp : splitOff 1 (1 / 2) = 1 := by
    norm_num [splitOff]
  have hpool : evalPool [("c1", [("L1", ["?"]), ("L2", ["a"])])] (1 / 2) =
      [("c1", [("L1", ["?"]), ("L2", ["a"])])] := by
    unfold evalPool sortDesc
    rw [List.mergeSort_singleton]
    simp only [List.length_cons, List.length_nil, Nat.zero_add, hsp]
    rfl
  constructor
  · show ((deriveTests ["L1", "L2"]
        (evalPool [("c1", [("L1", ["?"]), ("L2", ["a"])])] (1 / 2))).map
      Prod.fst) = ["c1-1", "c1-2"]
    rw [hpool]
    decide
  · show ("c1-1", [("L1", ["?"])]) ∈ deriveSolutions ["L1", "L2"]
      (evalPool [("c1", [("L1", ["?"]), ("L2", ["a"])])] (1 / 2))
    rw [hpool]
    decide

theorem lookup_some_mem [BEq α] [LawfulBEq α] :
    ∀ (d : List (α × β)) (k : α) (v : β), d.lookup k = some v → (k, v) ∈ d := by
  intro d
  induction d with
  | nil => intro k v h; simp [List.lookup] at h
  | cons p rest ih =>
    intro k v h
    obtain ⟨k1, v1⟩ := p
    by_cases hk : k = k1
    · subst hk
      simp [List.lookup] at h
      simp [h]
    · have hbeq : (k == k1) = false := beq_eq_false_iff_ne.mpr hk
      rw [List.lookup, hbeq] at h
      exact List.mem_cons_of_mem _ (ih k v h)

theorem lookup_of_value_unique [BEq α] [LawfulBEq α] :
    ∀ (d : List (α × β)) (k : α) (v : β), (k, v) ∈ d →
      (∀ q ∈ d, q.1 = k → q.2 = v) → d.lookup k = some v := by
  intro d
  induction d with
  | nil => intro k v h _; cases h
  | cons p rest ih =>
    intro k v h huniq
    obtain ⟨k1, v1⟩ := p
    by_cases hk : k = k1
    · subst hk
      have hv : v1 = v := huniq (k, v1) (by simp) rfl
      subst hv
      simp [List.lookup]
    · have hbeq : (k == k1) = false := beq_eq_false_iff_ne.mpr hk
      rw [List.lookup, hbeq]
      have hmem : (k, v) ∈ rest := by
        rcases List.mem_cons.mp h with h1 | h1
        · exact absurd (congrArg Prod.fst h1) hk
        · exact h1
      exact ih k v hmem (fun q hq => huniq q (List.mem_cons_of_mem _ hq))

theorem lookup_map_ow_self :
    ∀ (d : List (String × Nat)) (k : String) (v : Nat),
      d.any (fun p => p.1 == k) = true →
      (d.map (fun p => if p.1 = k then (k, v) else p)).lookup k = some v := by
  intro d
  induction d with
  | nil => intro k v hany; simp at hany
  | cons p rest ih =>
    intro k v hany
    obtain ⟨k1, v1⟩ := p
    by_cases hk : k1 = k
    · subst hk
      have hhead : (if (k1, v1).1 = k1 then (k1, v) else (k1, v1)) = (k1, v) :=
        if_pos rfl
      rw [List.map_cons, hhead, List.lookup]
      simp
    · have hhead : (if (k1, v1).1 = k then (k, v) else (k1, v1)) = (k1, v1) :=
        if_neg hk
      rw [List.map_cons, hhead, List.lookup]
      have hbeq : (k == k1) = false :=
        beq_eq_false_iff_ne.mpr (fun h => hk h.symm)
      rw [hbeq]
      apply ih
      simp only [List.any_cons] at hany
      rcases Bool.or_eq_true_iff.mp hany with h | h
      · exact absurd (eq_of_beq h) hk
      · exact h

theorem lookup_append_single_self :
    ∀ (d : List (String × Nat)) (k : String) (v : Nat),
      d.any (fun p => p.1 == k) = false →
      (d ++ [(k, v)]).lookup k = some v := by
  intro d
  induction d with
  | nil => intro k v _; simp [List.lookup]
  | cons p rest ih =>
    intro k v hany
    obtain ⟨k1, v1⟩ := p
    simp only [List.any_cons, Bool.or_eq_false_iff] at hany
    have hbeq : (k == k1) = false :=
      beq_eq_false_iff_ne.mpr
        (fun h => (beq_eq_false_iff_ne.mp hany.1) h.symm)
    rw [List.cons_append, List.lookup, hbeq]
    exact ih k v hany.2

theorem lookup_map_ow_ne :
    ∀ (d : List (String × Nat)) (k k' : String) (v : Nat), k' ≠ k →
      (d.map (fun p => if p.1 = k then (k, v) else p)).lookup k' =
        d.lookup k' := by
  intro d
  induction d with
  | nil => intro k k' v _; rfl
  | cons p rest ih =>
    intro k k' v hne
    obtain ⟨k1, v1⟩ := p
    by_cases hk : k1 = k
    · subst hk
      have hhead : (if (k1, v1).1 = k1 then (k1, v) else (k1, v1)) = (k1, v) :=
        if_pos rfl
      have hbeq : (k' == k1) = false := beq_eq_false_iff_ne.mpr hne
      rw [List.map_cons, hhead, List.lookup, List.lookup, hbeq]
      exact ih k1 k' v hne
    · have hhead : (if (k1, v1).1 = k then (k, v) else (k1, v1)) = (k1, v1) :=
        if_neg hk
      rw [List.map_cons, hhead, List.lookup, List.lookup]
      cases hbeq : (k' == k1) with
      | true => rfl
      | false => exact ih k k' v hne

theorem lookup_append_single_ne :
    ∀ (d : List (String × Nat)) (k k' : String) (v : Nat), k' ≠ k →
      (d ++ [(k, v)]).lookup k' = d.lookup k' := by
  intro d
  induction d with
  | nil =>
    intro k k' v hne
    have hbeq : (k' == k) = false := beq_eq_false_iff_ne.mpr hne
    simp [List.lookup, hbeq]
  | cons p rest ih =>
    intro k k' v hne
    obtain ⟨k1, v1⟩ := p
    rw [List.cons_append, List.lookup, List.lookup]
    cases hbeq : (k' == k1) with
    | true => rfl
    | false => exact ih k k' v hne

theorem lookup_dictInsert_self
    (d : List (String × Nat)) (k : String) (v : Nat) :
    (dictInsert d k v).lookup k = some v := by
  unfold dictInsert
  by_cases hany : d.any (fun p => p.1 == k) = true
  · rw [if_pos hany]
    exact lookup_map_ow_self d k v hany
  · rw [if_neg hany]
    exact lookup_append_single_self d k v (Bool.not_eq_true _ ▸ hany)

theorem lookup_dictInsert_ne (d : List (String × Nat)) (k k' : String)
    (v : Nat) (hne : k' ≠ k) :
    (dictInsert d k v).lookup k' = d.lookup k' := by
  unfold dictInsert
  by_cases hany : d.any (fun p => p.1 == k) = true
  · rw [if_pos hany]
    exact lookup_map_ow_ne d k k' v hne
  · rw [if_neg hany]
    exact lookup_append_single_ne d k k' v hne

theorem mem_dictInsert_elim {d : List (String × Nat)} {k : String} {v : Nat}
    {q : String × Nat} (h : q ∈ dictInsert d k v) :
    q = (k, v) ∨ (q ∈ d ∧ q.1 ≠ k) := by
  unfold dictInsert at h
  by_cases hany : d.any (fun p => p.1 == k) = true
  · rw [if_pos hany] at h
    obtain ⟨p, hp, hpq⟩ := List.mem_map.mp h
    by_cases hk : p.1 = k
    · left
      rw [if_pos hk] at hpq
      exact hpq.symm
    · right
      rw [if_neg hk] at hpq
      subst hpq
      exact ⟨hp, hk⟩
  · rw [if_neg hany] at h
    rcases List.mem_append.mp h with h1 | h1
    · right
      refine ⟨h1, ?_⟩
      intro hcon
      apply hany
      simp only [List.any_eq_true]
      exact ⟨q, h1, by simp [hcon]⟩
    · left
      simpa using h1

theorem mem_dictInsert_of_mem {d : List (String × Nat)} {k : String}
    {v : Nat} {q : String × Nat} (h : q ∈ d) (hne : q.1 ≠ k) :
    q ∈ dictInsert d k v := by
  unfold dictInsert
  by_cases hany : d.any (fun p => p.1 == k) = true
  · rw [if_pos hany]
    apply List.mem_map.mpr
    exact ⟨q, h, by rw [if_neg hne]⟩
  · rw [if_neg hany]
    exact List.mem_append.mpr (Or.inl h)

theorem mem_dictInsert_self (d : List (String × Nat)) (k : String)
    (v : Nat) : (k, v) ∈ dictInsert d k v :=
  lookup_some_mem _ k v (lookup_dictInsert_self d k v)

theorem mem_codesFrom :
    ∀ (l : List String) (k : Nat) (s : String) (c : Nat),
      (s, c) ∈ codesFrom k l → ∃ i, l.get? i = some s ∧ c = k + i := by
  intro l
  induction l with
  | nil => intro k s c h; cases h
  | cons a rest ih =>
    intro k s c h
    rcases List.mem_cons.mp h with h1 | h1
    · rw [Prod.mk.injEq] at h1
      exact ⟨0, by simp [h1.1.symm], by omega⟩
    · obtain ⟨i, hg, hc⟩ := ih (k + 1) s c h1
      exact ⟨i + 1, by simpa using hg, by omega⟩

theorem codesFrom_value_inj {l : List String} {k : Nat} {s1 s2 : String}
    {c : Nat} (h1 : (s1, c) ∈ codesFrom k l) (h2 : (s2, c) ∈ codesFrom k l) :
    s1 = s2 := by
  obtain ⟨i1, hg1, hc1⟩ := mem_codesFrom l k s1 c h1
  obtain ⟨i2, hg2, hc2⟩ := mem_codesFrom l k s2 c h2
  have : i1 = i2 := by omega
  subst this
  rw [hg1] at hg2
  exact Option.some.inj hg2

theorem codesFrom_value_ge {l : List String} {k : Nat} {s : String}
    {c : Nat} (h : (s, c) ∈ codesFrom k l) : k ≤ c := by
  obtain ⟨i, _, hc⟩ := mem_codesFrom l k s c h
  omega

theorem lookup_codesFrom_isSome :
    ∀ (l : List String) (k : Nat) (s : String),
      ((codesFrom k l).lookup s).isSome = true ↔ s ∈ l := by
  intro l
  induction l with
  | nil => intro k s; simp [codesFrom, List.lookup]
  | cons a rest ih =>
    intro k s
    by_cases hsa : s = a
    · subst hsa
      simp [codesFrom, List.lookup]
    · have hbeq : (s == a) = false := beq_eq_false_iff_ne.mpr hsa
      rw [codesFrom, List.lookup, hbeq, ih (k + 1) s]
      simp [hsa]

theorem mem_fitSound2idx_elim {gap missing : String} {n : Nat}
    {trainRows : List (String × List (List String))} {q : String × Nat}
    (h : q ∈ fitSound2idx gap missing n trainRows) :
    q = (missing, 0)
    ∨ (q.1 ≠ missing ∧ q = (gap, 1))
    ∨ (q.1 ≠ missing ∧ q.1 ≠ gap ∧
        q ∈ codesFrom 2 (sortedSounds n trainRows)) := by
  unfold fitSound2idx at h
  rcases mem_dictInsert_elim h with h1 | ⟨h1, hne1⟩
  · exact Or.inl h1
  · rcases mem_dictInsert_elim h1 with h2 | ⟨h2, hne2⟩
    · exact Or.inr (Or.inl ⟨hne1, h2⟩)
    · exact Or.inr (Or.inr ⟨hne1, hne2, h2⟩)

theorem fitSound2idx_value_inj {gap missing : String} {n : Nat}
    {trainRows : List (String × List (List String))} {s s' : String}
    {c : Nat} (h1 : (s, c) ∈ fitSound2idx gap missing n trainRows)
    (h2 : (s', c) ∈ fitSound2idx gap missing n trainRows) : s = s' := by
  rcases mem_fitSound2idx_elim h1 with ha | ⟨_, ha⟩ | ⟨_, _, ha⟩ <;>
    rcases mem_fitSound2idx_elim h2 with hb | ⟨_, hb⟩ | ⟨_, _, hb⟩ <;>
    [skip; skip; skip; skip; skip; skip; skip; skip;
      exact codesFrom_value_inj ha hb] <;>
    rw [Prod.mk.injEq] at * <;>
    first
    | (exact ha.1.trans hb.1.symm)
    | (exfalso
       first
       | omega
       | (have hca := ha.2
          have hcb := hb.2
          omega)
       | (have hca := ha.2
          have hcb := codesFrom_value_ge hb
          omega)
       | (have hca := codesFrom_value_ge ha
          have hcb := hb.2
          omega))

theorem mem_fitIdx2sound_iff {gap missing : String} {n : Nat}
    {trainRows : List (String × List (List String))} {c : Nat} {s : String} :
    (c, s) ∈ fitIdx2sound gap missing n trainRows ↔
      (s, c) ∈ fitSound2idx gap missing n trainRows := by
  unfold fitIdx2sound
  rw [List.mem_reverse, List.mem_map]
  constructor
  · rintro ⟨p, hp, hpe⟩
    have h1 : p.2 = c := congrArg Prod.fst hpe
    have h2 : p.1 = s := congrArg Prod.snd hpe
    have hps : (s, c) = p := by
      rw [← h1, ← h2]
    rw [hps]
    exact hp
  · intro h
    exact ⟨(s, c), h, rfl⟩

theorem lookup_fitIdx2sound {gap missing : String} {n : Nat}
    {trainRows : List (String × List (List String))} {s : String} {c : Nat}
    (h : (s, c) ∈ fitSound2idx gap missing n trainRows) :
    (fitIdx2sound gap missing n trainRows).lookup c = some s := by
  apply lookup_of_value_unique
  · exact mem_fitIdx2sound_iff.mpr h
  · rintro ⟨c1, s1⟩ hq hqc
    simp only at hqc
    subst hqc
    exact fitSound2idx_value_inj (mem_fitIdx2sound_iff.mp hq) h

theorem lookup_fit_missing (gap missing : String) (n : Nat)
    (trainRows : List (String × List (List String))) :
    (fitSound2idx gap missing n trainRows).lookup missing = some 0 :=
  lookup_dictInsert_self _ _ _

theorem lookup_fit_gap {gap missing : String} {n : Nat}
    {trainRows : List (String × List (List String))}
    (hgm : gap ≠ missing) :
    (fitSound2idx gap missing n trainRows).lookup gap = some 1 := by
  unfold fitSound2idx
  rw [lookup_dictInsert_ne _ _ _ _ hgm]
  exact lookup_dictInsert_self _ _ _

theorem lookup_fit_other {gap missing : String} {n : Nat}
    {trainRows : List (String × List (List String))} {s : String}
    (hm : s ≠ missing) (hg : s ≠ gap) :
    (fitSound2idx gap missing n trainRows).lookup s =
      (codesFrom 2 (sortedSounds n trainRows)).lookup s := by
  unfold fitSound2idx
  rw [lookup_dictInsert_ne _ _ _ _ hm, lookup_dictInsert_ne _ _ _ _ hg]

theorem fit_round_trip_of_mem (gap missing : String) (n : Nat)
    (trainRows : List (String × List (List String)))
    (hgm : gap ≠ missing) (s : String)
    (hs : s ∈ allSounds n trainRows) :
    ∃ c, (fitSound2idx gap missing n trainRows).lookup s = some c ∧
      (fitIdx2sound gap missing n trainRows).lookup c = some s := by
  by_cases hm : s = missing
  · subst hm
    refine ⟨0, lookup_fit_missing gap s n trainRows, ?_⟩
    exact lookup_fitIdx2sound
      (lookup_some_mem _ _ _ (lookup_fit_missing gap s n trainRows))
  · by_cases hg : s = gap
    · subst hg
      refine ⟨1, lookup_fit_gap hgm, ?_⟩
      exact lookup_fitIdx2sound (lookup_some_mem _ _ _ (lookup_fit_gap hgm))
    · have hsorted : s ∈ sortedSounds n trainRows := by
        unfold sortedSounds
        rw [List.mem_mergeSort]
        exact hs
      obtain ⟨c, hc⟩ := Option.isSome_iff_exists.mp
        ((lookup_codesFrom_isSome _ 2 s).mpr hsorted)
      have hmemcf : (s, c) ∈ codesFrom 2 (sortedSounds n trainRows) :=
        lookup_some_mem _ _ _ hc
      have hmem : (s, c) ∈ fitSound2idx gap missing n trainRows := by
        unfold fitSound2idx
        exact mem_dictInsert_of_mem (mem_dictInsert_of_mem hmemcf hg) hm
      refine ⟨c, ?_, lookup_fitIdx2sound hmem⟩
      rw [lookup_fit_other hm hg]
      exact hc

/-- C9: after `fit`, for every language and every symbol seen in that
language's training data, decoding the encoding of the symbol returns the
symbol; the gap always encodes to 1 and the missing symbol to 0 (the
reserved codes), provided the gap and missing markers are distinct as in
every configuration of the class. -/
theorem codec_round_trip (gap missing : String) (n : Nat)
    (trainRows : List (String × List (List String)))
    (language : String) (rows : List (List String))
    (hgm : gap ≠ missing) (hmem : (language, rows) ∈ trainRows) :
    (∀ s ∈ soundsOfRows n rows,
      ∃ c, (fitSound2idx gap missing n trainRows).lookup s = some c ∧
        (fitIdx2sound gap missing n trainRows).lookup c = some s)
    ∧ (fitSound2idx gap missing n trainRows).lookup gap = some 1
    ∧ (fitSound2idx gap missing n trainRows).lookup missing = some 0 := by
  refine ⟨?_, lookup_fit_gap hgm, lookup_fit_missing gap missing n trainRows⟩
  intro s hs
  apply fit_round_trip_of_mem gap missing n trainRows hgm
  unfold allSounds
  rw [List.mem_dedup]
  exact List.mem_flatMap.mpr ⟨(language, rows), hmem, hs⟩

theorem codec_round_trip_witness :
    (∃ c, (fitSound2idx "-" "Ø" 2 [("L1", [["a", "a"]])]).lookup "a" =
        some c ∧
      (fitIdx2sound "-" "Ø" 2 [("L1", [["a", "a"]])]).lookup c = some "a")
    ∧ (fitSound2idx "-" "Ø" 2 [("L1", [["a", "a"]])]).lookup "-" = some 1
    ∧ (fitSound2idx "-" "Ø" 2 [("L1", [["a", "a"]])]).lookup "Ø" =
      some 0 := by
  have h := codec_round_trip "-" "Ø" 2 [("L1", [["a", "a"]])] "L1"
    [["a", "a"]] (by decide) (by decide)
  exact ⟨h.1 "a" (by decide), h.2.1, h.2.2⟩

/-- C2 (amended): `fit` builds one single codec shared by all languages;
its domain is exactly the union of the symbols seen in the training
patterns and labels of ALL languages, plus the gap and the missing
markers — not a per-language codec built from one language's own
patterns. -/
theorem fit_codec_single_global (gap missing : String) (n : Nat)
    (trainRows : List (String × List (List String))) (s : String) :
    ((fitSound2idx gap missing n trainRows).lookup s).isSome = true ↔
      (s = missing ∨ s = gap ∨ s ∈ allSounds n trainRows) := by
  by_cases hm : s = missing
  · subst hm
    simp [lookup_fit_missing]
  · by_cases hg : s = gap
    · subst hg
      rw [lookup_fit_gap hm]
      simp
    · rw [lookup_fit_other hm hg, lookup_codesFrom_isSome]
      unfold sortedSounds
      rw [List.mem_mergeSort]
      constructor
      · intro h
        exact Or.inr (Or.inr h)
      · rintro (h | h | h)
        · exact absurd h hm
        · exact absurd h hg
        · exact h

theorem fit_codec_single_global_witness :
    ((fitSound2idx "-" "Ø" 2
        [("L1", [["a", "p"]]), ("L2", [["b", "q"]])]).lookup
      "a").isSome = true :=
  (fit_codec_single_global "-" "Ø" 2
    [("L1", [["a", "p"]]), ("L2", [["b", "q"]])] "a").mpr
    (Or.inr (Or.inr (by decide)))

/-- C2 (counterexample): with two languages, the symbol `"a"` occurs only
in `L1`'s training rows, yet it lies in the domain of the codec — the one
codec `fit` builds and that is used to encode `L2`'s examples and later
predictions targeting `L2`.  The codec for `L2` is therefore not built from
exactly the union of symbols of `L2`'s own training patterns. -/
theorem fit_codec_not_per_language :
    ((fitSound2idx "-" "Ø" 2
        [("L1", [["a", "p"]]), ("L2", [["b", "q"]])]).lookup
      "a").isSome = true
    ∧ "a" ∉ soundsOfRows 2 [["b", "q"]] := by
  constructor
  · rw [lookup_fit_other (by decide) (by decide), lookup_codesFrom_isSome]
    unfold sortedSounds
    rw [List.mem_mergeSort]
    decide
  · decide

theorem extractPattern_eq_self (n : Nat) (row : List String)
    (h : row.length = n) : extractPattern n row = row := by
  unfold extractPattern
  rw [List.take_of_length_le (by omega), List.drop_eq_nil_of_le (by omega)]
  simp

/-- C1 (code-bug evaluation): on a training-matrix row of width
`n = 2` (one cell per language of a two-language universe, target last),
the slice `row[:n] + row[n+1:]` removes nothing: the extracted context is
the entire row — width 2, not the claimed 1 = n − 1 — and it contains the
target language's own symbol `"b"`, which is also the extracted label. -/
theorem fit_context_includes_target :
    extractPattern 2 ["a", "b"] = ["a", "b"]
    ∧ (extractPattern 2 ["a", "b"]).length = 2
    ∧ extractLabel 2 ["a", "b"] = "b"
    ∧ "b" ∈ extractPattern 2 ["a", "b"] := by
  refine ⟨by decide, by decide, by decide, by decide⟩

/-- C5 (amended): the sequence returned by `Baseline.predict` never
contains the literal symbol `"-"` — which is the configured gap in every
configuration the repository uses (the filter tests the literal, not
`self.gap`). -/
theorem predict_no_literal_gap (s2i : List (String × Nat))
    (i2s : List (Nat × String)) (clf : List (List Nat) → List Nat)
    (matrix : List (List String)) (unknown : String) :
    "-" ∉ baselinePredict s2i i2s clf matrix unknown := by
  intro h
  unfold baselinePredict at h
  have h2 := (List.mem_filter.mp h).2
  simp at h2

/-- C5 (counterexample): a Baseline configured with gap `"g"` (and missing
`"m"`) whose classifier predicts the gap class (code 1) returns `["g"]`:
the configured gap symbol survives in the output, because the filter drops
only the literal `"-"`. -/
theorem predict_keeps_configured_gap :
    baselinePredict (fitSound2idx "g" "m" 2 [("L1", [["g", "g"]])])
      (fitIdx2sound "g" "m" 2 [("L1", [["g", "g"]])])
      (fun _ => [1]) [["x"]] "?" = ["g"] := by
  have hs : sortedSounds 2 [("L1", [["g", "g"]])] = ["g"] := by
    unfold sortedSounds
    have h : allSounds 2 [("L1", [["g", "g"]])] = ["g"] := by decide
    rw [h, List.mergeSort_singleton]
  have h1 : fitSound2idx "g" "m" 2 [("L1", [["g", "g"]])] =
      [("g", 1), ("m", 0)] := by
    unfold fitSound2idx
    rw [hs]
    decide
  have h2 : fitIdx2sound "g" "m" 2 [("L1", [["g", "g"]])] =
      [(0, "m"), (1, "g")] := by
    unfold fitIdx2sound
    rw [h1]
    decide
  rw [h1, h2]
  decide

/-- C6: prediction never fails on unseen symbols: encoding maps any symbol
outside the codec to the missing code 0, decoding maps any code without a
symbol to the caller's unknown marker, and every returned symbol is either
a symbol of the trained codec or the unknown marker. -/
theorem predict_robust (gap missing : String) (n : Nat)
    (trainRows : List (String × List (List String)))
    (clf : List (List Nat) → List Nat) (matrix : List (List String))
    (unknown : String) :
    (∀ s : String, (fitSound2idx gap missing n trainRows).lookup s = none →
        encodeCell (fitSound2idx gap missing n trainRows) s = 0)
    ∧ (∀ c : Nat, (fitIdx2sound gap missing n trainRows).lookup c = none →
        decodeCell (fitIdx2sound gap missing n trainRows) unknown c =
          unknown)
    ∧ (∀ x ∈ baselinePredict (fitSound2idx gap missing n trainRows)
          (fitIdx2sound gap missing n trainRows) clf matrix unknown,
        x ∈ (fitSound2idx gap missing n trainRows).map Prod.fst
        ∨ x = unknown) := by
  refine ⟨?_, ?_, ?_⟩
  · intro s h
    unfold encodeCell
    rw [h]
    rfl
  · intro c h
    unfold decodeCell
    rw [h]
    rfl
  · intro x hx
    unfold baselinePredict at hx
    have hx2 := (List.mem_filter.mp hx).1
    obtain ⟨c, hc, hdec⟩ := List.mem_map.mp hx2
    unfold decodeCell at hdec
    cases hlook : (fitIdx2sound gap missing n trainRows).lookup c with
    | none =>
      right
      rw [hlook] at hdec
      exact hdec.symm
    | some s =>
      left
      rw [hlook] at hdec
      simp only [Option.getD_some] at hdec
      subst hdec
      have hmem := lookup_some_mem _ _ _ hlook
      have hs2i := mem_fitIdx2sound_iff.mp hmem
      exact List.mem_map.mpr ⟨(s, c), hs2i, rfl⟩

theorem predict_robust_witness :
    encodeCell (fitSound2idx "-" "Ø" 2 [("L1", [["a", "a"]])]) "zz" = 0
    ∧ decodeCell (fitIdx2sound "-" "Ø" 2 [("L1", [["a", "a"]])]) "?" 99 =
      "?" := by
  have hs : sortedSounds 2 [("L1", [["a", "a"]])] = ["a"] := by
    unfold sortedSounds
    have h : allSounds 2 [("L1", [["a", "a"]])] = ["a"] := by decide
    rw [h, List.mergeSort_singleton]
  have h1 : fitSound2idx "-" "Ø" 2 [("L1", [["a", "a"]])] =
      [("a", 2), ("-", 1), ("Ø", 0)] := by
    unfold fitSound2idx
    rw [hs]
    decide
  have h2 : fitIdx2sound "-" "Ø" 2 [("L1", [["a", "a"]])] =
      [(0, "Ø"), (1, "-"), (2, "a")] := by
    unfold fitIdx2sound
    rw [h1]
    decide
  have h := predict_robust "-" "Ø" 2 [("L1", [["a", "a"]])]
    (fun _ => []) [] "?"
  exact ⟨h.1 "zz" (by rw [h1]; decide), h.2.1 99 (by rw [h2]; decide)⟩

end ST2022
